import Mathlib

/-!
Verification of the Lie-subalgebra closure machinery of
`sage/algebras/lie_algebras/subalgebra.py`
(`LieSubalgebra_finite_dimensional_with_basis`).

The ambient Lie algebra is finite dimensional with a fixed basis over the
field `ℚ`, so ambient elements are identified with their coordinate vectors
`Fin n → ℚ`.  The linear-algebra services consumed from the ambient vector
space (span bases, echelonization, membership and coordinates with respect
to a submodule basis) are implemented executably by Gaussian elimination and
proved correct against `Submodule.span`.  The core of the source file — the
fixed-point closure loop of `basis()`, `retract`/`lift`, the element-level
bracket, `is_ideal`, and the element coordinate methods — is embedded on top
of that, following the Python line by line.
-/

namespace SageLie

/-- Coordinate vectors of the ambient algebra (ambient elements are
identified with their coordinate vectors relative to the fixed basis). -/
abbrev Vec (n : ℕ) : Type := Fin n → ℚ

variable {n : ℕ}

/-- First index in the list `is` where `v` is nonzero. -/
def firstIdx (v : Vec n) : List (Fin n) → Option (Fin n)
  | [] => none
  | i :: is => if v i ≠ 0 then some i else firstIdx v is

/-- The pivot position of a row: the first coordinate where it is nonzero. -/
def firstNonzero (v : Vec n) : Option (Fin n) :=
  firstIdx v (List.finRange n)

/-- Subtract from `w` the multiple of the row `r` that clears `w` at the
pivot of `r` (one elimination step of the Gaussian reduction used by the
ambient vector space's submodule arithmetic). -/
def reduceBy (w r : Vec n) : Vec n :=
  match firstNonzero r with
  | none => w
  | some i => w - (w i / r i) • r

/-- Reduce `v` against every row of `rows` in order. -/
def reduceAgainst (rows : List (Vec n)) (v : Vec n) : Vec n :=
  rows.foldl reduceBy v

/-- Insert `v` into an echelonized row list: reduce it against the existing
rows; if the remainder is zero the span is unchanged, otherwise normalize
the remainder, clear its pivot column from the other rows and append it. -/
def echelonInsert (rows : List (Vec n)) (v : Vec n) : List (Vec n) :=
  match firstNonzero (reduceAgainst rows v) with
  | none => rows
  | some i =>
    let w1 := (reduceAgainst rows v i)⁻¹ • reduceAgainst rows v
    (rows.map fun r => r - r i • w1) ++ [w1]

/-- Echelonized basis of the span of a list of vectors: the embedding of the
ambient vector space's `submodule(vectors)` basis computation. -/
def echelon (l : List (Vec n)) : List (Vec n) :=
  l.foldl echelonInsert []

/-- Executable zero test on coordinate vectors (`is_zero()`). -/
def vecIsZero (v : Vec n) : Bool :=
  (List.finRange n).all fun i => decide (v i = 0)

/-- The submodule of the ambient coordinate space spanned by a list of
vectors. -/
def spanL (l : List (Vec n)) : Submodule ℚ (Vec n) :=
  Submodule.span ℚ {x | x ∈ l}

/-- Executable membership test of a vector in the row space of an
echelonized row list. -/
def memB (rows : List (Vec n)) (v : Vec n) : Bool :=
  vecIsZero (reduceAgainst rows v)

/-- Pivot column as a natural number, with `n` for the zero row (used as the
sorting key of the echelonized basis). -/
def pivN (r : Vec n) : ℕ :=
  match firstNonzero r with
  | some i => i.val
  | none => n

/-- Comparison of rows by pivot column. -/
def pivLE (r s : Vec n) : Prop :=
  pivN r ≤ pivN s

instance : DecidableRel (pivLE (n := n)) :=
  fun r s => decidable_of_iff (pivN r ≤ pivN s) Iff.rfl

instance : IsTotal (Vec n) pivLE :=
  ⟨fun a b => le_total (pivN a) (pivN b)⟩

instance : IsTrans (Vec n) pivLE :=
  ⟨fun _ _ _ h h' => le_trans h h'⟩

/-- Sort a row list by pivot column (Sage's echelonized bases list rows by
increasing pivot). -/
def sortByPiv (rows : List (Vec n)) : List (Vec n) :=
  List.insertionSort pivLE rows

/-- Coordinates of a vector relative to an echelonized basis, implementing
the ambient vector space's `coordinate_vector`: for a reduced basis the
coordinate along a row is the vector's value at that row's pivot column. -/
def coordList (rows : List (Vec n)) (v : Vec n) : List ℚ :=
  rows.map fun r =>
    match firstNonzero r with
    | some i => v i
    | none => 0

/-- Linear combination of a list of rows with a list of coefficients. -/
def sumSmul : List ℚ → List (Vec n) → Vec n
  | c :: cs, r :: rows => c • r + sumSmul cs rows
  | _, _ => 0

/-- The invariant of the row lists produced by `echelon`: rows are distinct,
each row is normalized to `1` at its pivot, and every row vanishes at the
pivots of all other rows. -/
structure EchInv (rows : List (Vec n)) : Prop where
  nodup : rows.Nodup
  norm : ∀ r ∈ rows, ∃ i, firstNonzero r = some i ∧ r i = 1
  orth : ∀ r ∈ rows, ∀ s ∈ rows, r ≠ s → ∀ i, firstNonzero r = some i → s i = 0

/-- A finite dimensional Lie algebra with basis over `ℚ`, presented by its
structure constants: `c i j` is the coordinate vector of the bracket of the
`i`-th and `j`-th basis elements (the external `AmbientLieAlgebra`). -/
structure LieAlg (n : ℕ) where
  c : Fin n → Fin n → Vec n

/-- The ambient bracket `L.bracket(x, y)` on coordinate vectors, extended
bilinearly from the structure constants. -/
def bracketVec (L : LieAlg n) (x y : Vec n) : Vec n :=
  fun k => ∑ i, ∑ j, x i * y j * L.c i j k

/-- A submodule of the ambient coordinate space closed under the ambient
bracket. -/
def BracketClosed (L : LieAlg n) (N : Submodule ℚ (Vec n)) : Prop :=
  ∀ v ∈ N, ∀ w ∈ N, bracketVec L v w ∈ N

/-- One saturation pass of the closure loop of `basis()`:
`sm = m.submodule(sm.basis() + [L.bracket(v, w).to_vector() for v in SB
for w in SB])`. -/
def closureStep (L : LieAlg n) (sm : List (Vec n)) : List (Vec n) :=
  echelon (sm ++ sm.flatMap fun v => sm.map fun w => bracketVec L v w)

/-- The `while sm.dimension() > d` fixed-point loop of `basis()`, with
explicit fuel; `d` holds the dimension recorded at the previous check. -/
def basisLoop (L : LieAlg n) : ℕ → ℕ → List (Vec n) → List (Vec n)
  | 0, _, sm => sm
  | fuel + 1, d, sm =>
    if d < sm.length then basisLoop L fuel sm.length (closureStep L sm) else sm

/-- The echelonized basis (in ambient coordinates) of the Lie subalgebra
generated by a list of ambient generators: the embedding of `basis()`,
whose result lists `sm.echelonized_basis()` in pivot order. -/
def subBasisList (L : LieAlg n) (gens : List (Vec n)) : List (Vec n) :=
  sortByPiv (basisLoop L (n + 1) 0 (echelon gens))

/-- A Lie subalgebra handle: the normalized generator tuple `_gens` over the
ambient algebra `L` (`LieSubalgebra_finite_dimensional_with_basis`). -/
structure Sub (n : ℕ) (L : LieAlg n) : Type where
  gens : List (Vec n)
deriving DecidableEq

/-- `__classcall_private__` over a top-level ambient algebra: coerce each
generator into the ambient and drop the exact zeros. -/
def mkSub (L : LieAlg n) (gens : List (Vec n)) : Sub n L :=
  ⟨gens.filter fun g => !vecIsZero g⟩

/-- An element of a subalgebra: a wrapper around an ambient element, with
the owning subalgebra as parent (`LieAlgebraElementWrapper`). -/
structure SubElem {n : ℕ} {L : LieAlg n} (S : Sub n L) : Type where
  value : Vec n
deriving DecidableEq

/-- `subalgebra(S, gens)` where the ambient argument is itself a
subalgebra: the generators are coerced into `S`, zeros dropped, then lifted
to `S.ambient()` and the ambient replaced by `S.ambient()` (= `L`). -/
def mkSubOfSub {L : LieAlg n} (S : Sub n L) (gens : List (SubElem S)) : Sub n L :=
  ⟨(gens.filter fun g => !vecIsZero g.value).map fun g => g.value⟩

/-- `ambient()`: the ambient Lie algebra of the subalgebra. -/
def Sub.ambientAlg {L : LieAlg n} (_ : Sub n L) : LieAlg n := L

/-- Cached basis of the subalgebra in ambient coordinates: the wrapped
values of the family returned by `basis()`. -/
def Sub.basisList {L : LieAlg n} (S : Sub n L) : List (Vec n) :=
  subBasisList L S.gens

/-- `module()`: the submodule of the ambient coordinate space spanned by
the basis returned by the closure computation. -/
def Sub.moduleSpan {L : LieAlg n} (S : Sub n L) : Submodule ℚ (Vec n) :=
  spanL S.basisList

/-- `dimension()`. -/
def Sub.dim {L : LieAlg n} (S : Sub n L) : ℕ :=
  S.basisList.length

/-- `__contains__` on ambient elements: the coordinate vector must lie in
`module()`. -/
def Sub.containsVec {L : LieAlg n} (S : Sub n L) (x : Vec n) : Bool :=
  memB S.basisList x

/-- The Python exceptions relevant to the embedded methods. -/
inductive PyExc (n : ℕ) (L : LieAlg n) : Type
  | valueError (offending : Vec n) (parent : Sub n L)
  | keyError
  | indexError
  | nameError
deriving DecidableEq

/-- `retract(X)`: raise `ValueError("the element %s is not in %s")` — which
reports the offending element and the subalgebra — when `X not in self`,
else wrap `X` directly. -/
def Sub.retract {L : LieAlg n} (S : Sub n L) (x : Vec n) :
    Except (PyExc n L) (SubElem S) :=
  if S.containsVec x then Except.ok ⟨x⟩ else Except.error (PyExc.valueError x S)

/-- `lift(X)`: the wrapped ambient value; total. -/
def Sub.lift {L : LieAlg n} (S : Sub n L) (X : SubElem S) : Vec n :=
  X.value

/-- `Element._bracket_`: the ambient bracket of the two wrapped values,
retracted into the parent. -/
def SubElem.bracket {L : LieAlg n} {S : Sub n L} (X Y : SubElem S) :
    Except (PyExc n L) (SubElem S) :=
  S.retract (bracketVec L X.value Y.value)

/-- `Element.to_vector`: the vector in the ambient module corresponding to
the wrapped value (`self.value.to_vector()`). -/
def SubElem.toVec {L : LieAlg n} {S : Sub n L} (X : SubElem S) : Vec n :=
  X.value

/-- A coordinate vector as a plain list (to compare shapes of coordinate
data of different lengths). -/
def vecToList (v : Vec n) : List ℚ :=
  (List.finRange n).map v

/-- The behaviour C8 ascribes to `Element.to_vector`, following the spec's
words: the wrapped value's coordinates relative to the subalgebra's own
cached basis, a vector of length `dimension(S)` obtained by solving against
the cached basis matrix. -/
def SubElem.toVecClaimed {L : LieAlg n} {S : Sub n L} (X : SubElem S) : List ℚ :=
  coordList S.basisList X.value

/-- `Element.monomial_coefficients`: the coordinates of the wrapped value
relative to the subalgebra's basis (`sm.coordinate_vector(...)`), as the
sparse map `{k: v[k] for k in range(len(v)) if not v[k].is_zero()}`. -/
def SubElem.monomialCoefficients {L : LieAlg n} {S : Sub n L} (X : SubElem S) :
    List (ℕ × ℚ) :=
  (coordList S.basisList X.toVec).enum.filter fun p => !decide (p.2 = 0)

/-- Python `dict` item access: a missing key raises `KeyError`. -/
def dictGet (n : ℕ) (L : LieAlg n) (d : List (ℕ × ℚ)) (i : ℕ) :
    Except (PyExc n L) ℚ :=
  match d.lookup i with
  | some c => Except.ok c
  | none => Except.error PyExc.keyError

/-- `Element.__getitem__`: `try: return self.monomial_coefficients()[i]
except IndexError: return self.parent().base_ring().zero()` — only an
`IndexError` is caught; the `KeyError` a `dict` raises passes through. -/
def SubElem.getItem {L : LieAlg n} {S : Sub n L} (X : SubElem S) (i : ℕ) :
    Except (PyExc n L) ℚ :=
  match dictGet n L X.monomialCoefficients i with
  | Except.error PyExc.indexError => Except.ok 0
  | r => r

/-- Arguments to the parent-level `__getitem__`: a 2-tuple of ambient
elements, or anything else (e.g. an integer index). -/
inductive GetArg (n : ℕ) : Type
  | pair (a b : Vec n)
  | single (i : ℕ)

/-- `LieSubalgebra.__getitem__`: a 2-tuple yields the bracket of the two
coerced operands; any other argument reaches `return sup.__getitem__(x)`
in which the name `sup` was never bound (the preceding line discards the
`super(...)` object), so a `NameError` is raised. -/
def Sub.getItem {L : LieAlg n} (S : Sub n L) : GetArg n → Except (PyExc n L) (SubElem S)
  | GetArg.pair a b =>
    (S.retract a).bind fun ea => (S.retract b).bind fun eb => ea.bracket eb
  | GetArg.single _ => Except.error PyExc.nameError

/-- Candidate algebras `A` for `is_ideal(A)`: another subalgebra of the
same ambient algebra, the ambient algebra itself, or a heterogeneous
algebra whose elements do not bracket with the subalgebra's. -/
inductive IdealCand (n : ℕ) (L : LieAlg n) : Type
  | sub (T : Sub n L)
  | top
  | hetero (vecs : List (Vec n))

/-- `A.basis()` of a candidate algebra, in ambient coordinates. -/
def IdealCand.basisVecs {L : LieAlg n} : IdealCand n L → List (Vec n)
  | IdealCand.sub T => T.basisList
  | IdealCand.top => (List.finRange n).map fun i j => if j = i then 1 else 0
  | IdealCand.hetero vecs => vecs

/-- `A.bracket(b, ab)`: both operands are coerced into `A` and bracketed
there; `none` models the `ValueError`/`TypeError` raised when a coercion
fails (an operand outside a subalgebra, or heterogeneous algebras). -/
def IdealCand.bracketTry {L : LieAlg n} : IdealCand n L → Vec n → Vec n → Option (Vec n)
  | IdealCand.sub T, b, ab =>
    if T.containsVec b && T.containsVec ab then some (bracketVec L b ab) else none
  | IdealCand.top, b, ab => some (bracketVec L b ab)
  | IdealCand.hetero _, _, _ => none

/-- The equality test `A == self`: parents are unique per normalized
construction data, so equality is equality of that data. -/
def IdealCand.eqSub {L : LieAlg n} : IdealCand n L → Sub n L → Bool
  | IdealCand.sub T, S => decide (T = S)
  | _, _ => false

/-- Sequence a list of optional values; `none` aborts (a raised exception
during the matrix construction). -/
def optionList {α : Type} : List (Option α) → Option (List α)
  | [] => some []
  | none :: _ => none
  | some a :: rest => (optionList rest).map fun l => a :: l

/-- The bracket matrix rows `[A.bracket(b, ab) for b in B for ab in AB]`,
or `none` when one of the brackets raises. -/
def bracketRows {L : LieAlg n} (S : Sub n L) (A : IdealCand n L) :
    Option (List (Vec n)) :=
  optionList (S.basisList.flatMap fun b => A.basisVecs.map fun ab => A.bracketTry b ab)

/-- `is_ideal(A)`: `True` when `A == self`; otherwise build the bracket
matrix — a `ValueError`/`TypeError` during the construction is caught and
yields `False` — and return whether its row space is a submodule of
`self.module()`. -/
def Sub.isIdeal {L : LieAlg n} (S : Sub n L) (A : IdealCand n L) : Bool :=
  if A.eqSub S then true
  else
    match bracketRows S A with
    | none => false
    | some rows => rows.all fun r => memB S.basisList r

/-- The Heisenberg-type algebra on basis `{X, Y, Z}` with `[X, Y] = Z` (the
concrete scenario of the spec and of the source doctests). -/
def Heis : LieAlg 3 :=
  ⟨fun i j =>
    if i.val = 0 ∧ j.val = 1 then ![0, 0, 1]
    else if i.val = 1 ∧ j.val = 0 then ![0, 0, -1]
    else 0⟩

/-- The coordinate vector of the basis element `X` of `Heis`. -/
def vX : Vec 3 := ![1, 0, 0]

/-- The coordinate vector of the basis element `Y` of `Heis`. -/
def vY : Vec 3 := ![0, 1, 0]

/-- The coordinate vector of the basis element `Z` of `Heis`. -/
def vZ : Vec 3 := ![0, 0, 1]

/-- The abelian Lie algebra on two generators (all brackets vanish). -/
def Abel2 : LieAlg 2 := ⟨fun _ _ => 0⟩

/-- The first standard basis vector of the two dimensional algebra. -/
def e0 : Vec 2 := ![1, 0]

/-- The second standard basis vector of the two dimensional algebra. -/
def e1 : Vec 2 := ![0, 1]

theorem firstIdx_eq_none {v : Vec n} {is : List (Fin n)} :
    firstIdx v is = none ↔ ∀ i ∈ is, v i = 0 := by
  induction is with
  | nil => simp [firstIdx]
  | cons a is ih =>
    by_cases h : v a ≠ 0
    · simp only [firstIdx, if_pos h]
      constructor
      · intro hc
        exact absurd hc (by simp)
      · intro hc
        exact absurd (hc a (List.mem_cons_self a is)) h
    · push_neg at h
      simp only [firstIdx, h, ne_eq, not_true_eq_false, if_false, ih]
      constructor
      · intro hc i hi
        rcases List.mem_cons.mp hi with rfl | hi'
        · exact h
        · exact hc i hi'
      · intro hc i hi
        exact hc i (List.mem_cons_of_mem _ hi)

theorem firstIdx_mem_ne {v : Vec n} {is : List (Fin n)} {i : Fin n}
    (h : firstIdx v is = some i) : i ∈ is ∧ v i ≠ 0 := by
  induction is with
  | nil => simp [firstIdx] at h
  | cons a is ih =>
    by_cases ha : v a ≠ 0
    · simp [firstIdx, ha] at h
      subst h
      exact ⟨List.mem_cons_self _ _, ha⟩
    · simp [firstIdx, ha] at h
      obtain ⟨hm, hv⟩ := ih h
      exact ⟨List.mem_cons_of_mem _ hm, hv⟩

theorem firstIdx_earlier_zero {v : Vec n} {is : List (Fin n)} {i : Fin n}
    (hs : is.Sorted (· < ·)) (h : firstIdx v is = some i) :
    ∀ j ∈ is, j < i → v j = 0 := by
  induction is with
  | nil => simp
  | cons a is ih =>
    rw [List.sorted_cons] at hs
    by_cases ha : v a ≠ 0
    · simp [firstIdx, ha] at h
      subst h
      intro j hj hji
      rcases List.mem_cons.mp hj with rfl | hj'
      · exact absurd hji (lt_irrefl _)
      · exact absurd hji (not_lt.mpr (le_of_lt (hs.1 j hj')))
    · simp [firstIdx, ha] at h
      intro j hj hji
      rcases List.mem_cons.mp hj with rfl | hj'
      · simpa using ha
      · exact ih hs.2 h j hj' hji

/-- Characterization of `firstNonzero` as the least nonzero coordinate. -/
theorem firstNonzero_eq_some_iff {v : Vec n} {i : Fin n} :
    firstNonzero v = some i ↔ v i ≠ 0 ∧ ∀ j, j < i → v j = 0 := by
  constructor
  · intro h
    refine ⟨(firstIdx_mem_ne h).2, fun j hj => ?_⟩
    exact firstIdx_earlier_zero (List.pairwise_lt_finRange n) h j (List.mem_finRange j) hj
  · rintro ⟨hvi, hlt⟩
    cases hfn : firstNonzero v with
    | none =>
      rw [firstNonzero, firstIdx_eq_none] at hfn
      exact absurd (hfn i (List.mem_finRange i)) hvi
    | some i' =>
      have h1 := firstIdx_mem_ne hfn
      rcases lt_trichotomy i' i with hlt' | heq | hgt
      · exact absurd (hlt i' hlt') h1.2
      · rw [heq]
      · exact absurd (firstIdx_earlier_zero (List.pairwise_lt_finRange n) hfn i
          (List.mem_finRange i) hgt) hvi

theorem firstNonzero_eq_none_iff {v : Vec n} :
    firstNonzero v = none ↔ v = 0 := by
  rw [firstNonzero, firstIdx_eq_none]
  constructor
  · intro h
    funext i
    exact h i (List.mem_finRange i)
  · intro h i _
    rw [h]
    rfl

theorem firstNonzero_apply_ne {v : Vec n} {i : Fin n}
    (h : firstNonzero v = some i) : v i ≠ 0 :=
  (firstNonzero_eq_some_iff.mp h).1

theorem firstNonzero_lt_zero {v : Vec n} {i : Fin n}
    (h : firstNonzero v = some i) : ∀ j, j < i → v j = 0 :=
  (firstNonzero_eq_some_iff.mp h).2

/-- Scaling by a nonzero constant does not move the pivot. -/
theorem firstNonzero_smul {v : Vec n} {c : ℚ} (hc : c ≠ 0) :
    firstNonzero (c • v) = firstNonzero v := by
  cases hv : firstNonzero v with
  | none =>
    rw [firstNonzero_eq_none_iff] at hv
    rw [firstNonzero_eq_none_iff, hv, smul_zero]
  | some i =>
    rw [firstNonzero_eq_some_iff] at hv
    rw [firstNonzero_eq_some_iff]
    refine ⟨by simp [hc, hv.1], fun j hj => by simp [hv.2 j hj]⟩

theorem vecIsZero_iff {v : Vec n} : vecIsZero v = true ↔ v = 0 := by
  rw [vecIsZero, List.all_eq_true]
  constructor
  · intro h
    funext i
    exact of_decide_eq_true (h i (List.mem_finRange i))
  · intro h i _
    rw [h]
    simp

theorem vecIsZero_eq_false_iff {v : Vec n} : vecIsZero v = false ↔ v ≠ 0 := by
  constructor
  · intro h hv
    subst hv
    rw [vecIsZero_iff.mpr rfl] at h
    exact Bool.noConfusion h
  · intro hv
    cases h : vecIsZero v
    · rfl
    · exact absurd (vecIsZero_iff.mp h) hv

theorem spanL_nil : spanL ([] : List (Vec n)) = ⊥ := by
  simp [spanL, Submodule.span_empty, Set.setOf_mem_eq]

theorem mem_spanL_of_mem {rows : List (Vec n)} {r : Vec n} (h : r ∈ rows) :
    r ∈ spanL rows :=
  Submodule.subset_span h

theorem spanL_le_iff {rows : List (Vec n)} {N : Submodule ℚ (Vec n)} :
    spanL rows ≤ N ↔ ∀ r ∈ rows, r ∈ N := by
  rw [spanL, Submodule.span_le]
  exact ⟨fun h r hr => h hr, fun h r hr => h r hr⟩

theorem spanL_le_spanL_of_subset {rows rows' : List (Vec n)}
    (h : ∀ r ∈ rows, r ∈ rows') : spanL rows ≤ spanL rows' :=
  spanL_le_iff.mpr fun r hr => mem_spanL_of_mem (h r hr)

theorem spanL_cons_le {rows : List (Vec n)} {r : Vec n} :
    spanL rows ≤ spanL (r :: rows) :=
  spanL_le_spanL_of_subset fun _ hs => List.mem_cons_of_mem _ hs

theorem reduceBy_exists_coeff (w r : Vec n) :
    ∃ c : ℚ, reduceBy w r = w - c • r := by
  cases h : firstNonzero r with
  | none => exact ⟨0, by simp [reduceBy, h]⟩
  | some i => exact ⟨w i / r i, by simp [reduceBy, h]⟩

theorem sub_reduceAgainst_mem_spanL (rows : List (Vec n)) (v : Vec n) :
    v - reduceAgainst rows v ∈ spanL rows := by
  induction rows generalizing v with
  | nil => simp [reduceAgainst, spanL]
  | cons r rows ih =>
    have hstep : reduceAgainst (r :: rows) v = reduceAgainst rows (reduceBy v r) := rfl
    obtain ⟨c, hc⟩ := reduceBy_exists_coeff v r
    have h1 : v - reduceAgainst (r :: rows) v =
        c • r + (reduceBy v r - reduceAgainst rows (reduceBy v r)) := by
      rw [hstep, hc]
      abel
    rw [h1]
    refine Submodule.add_mem _ ?_ (spanL_cons_le (ih (reduceBy v r)))
    exact Submodule.smul_mem _ _ (mem_spanL_of_mem (List.mem_cons_self r rows))

theorem reduceAgainst_mem_spanL {rows : List (Vec n)} {v : Vec n}
    (hv : v ∈ spanL rows) : reduceAgainst rows v ∈ spanL rows := by
  have h := sub_reduceAgainst_mem_spanL rows v
  have := Submodule.sub_mem _ hv h
  simpa using this

theorem reduceAgainst_apply_eq {rows : List (Vec n)} {i : Fin n}
    (h : ∀ r ∈ rows, r i = 0) (v : Vec n) :
    reduceAgainst rows v i = v i := by
  induction rows generalizing v with
  | nil => rfl
  | cons r rows ih =>
    have hstep : reduceAgainst (r :: rows) v = reduceAgainst rows (reduceBy v r) := rfl
    rw [hstep, ih (fun s hs => h s (List.mem_cons_of_mem _ hs))]
    obtain ⟨c, hc⟩ := reduceBy_exists_coeff v r
    rw [hc]
    simp [h r (List.mem_cons_self r rows)]

theorem reduceBy_pivot_zero {w r : Vec n} {i : Fin n}
    (h : firstNonzero r = some i) : reduceBy w r i = 0 := by
  have hri : r i ≠ 0 := firstNonzero_apply_ne h
  simp [reduceBy, h, div_mul_cancel₀ _ hri]

theorem reduceAgainst_pivot_zero {rows : List (Vec n)} (inv : EchInv rows)
    {r : Vec n} (hr : r ∈ rows) {i : Fin n} (hi : firstNonzero r = some i)
    (v : Vec n) : reduceAgainst rows v i = 0 := by
  obtain ⟨pre, post, rfl⟩ := List.append_of_mem hr
  have hpost : ∀ s ∈ post, s i = 0 := by
    intro s hs
    have hsr : s ≠ r := by
      intro hsr
      have hnd : (r :: post).Nodup := (List.Nodup.of_append_right inv.nodup)
      rw [List.nodup_cons] at hnd
      exact hnd.1 (hsr ▸ hs)
    exact inv.orth r hr s (List.mem_append_right _ (List.mem_cons_of_mem _ hs))
      (fun h => hsr h.symm) i hi
  have hsplit : reduceAgainst (pre ++ r :: post) v =
      reduceAgainst post (reduceBy (reduceAgainst pre v) r) := by
    rw [reduceAgainst, List.foldl_append]
    rfl
  rw [hsplit, reduceAgainst_apply_eq hpost, reduceBy_pivot_zero hi]

theorem spanL_eq_span_range (rows : List (Vec n)) :
    spanL rows = Submodule.span ℚ (Set.range rows.get) := by
  unfold spanL
  congr 1
  ext x
  simp [List.mem_iff_get, eq_comm]

theorem span_zero_pivots {rows : List (Vec n)} (inv : EchInv rows)
    {w : Vec n} (hw : w ∈ spanL rows)
    (hz : ∀ r ∈ rows, ∀ i, firstNonzero r = some i → w i = 0) : w = 0 := by
  rw [spanL_eq_span_range] at hw
  obtain ⟨c, hsum⟩ := (mem_span_range_iff_exists_fun ℚ).mp hw
  have hc : ∀ k, c k = 0 := by
    intro k
    have hrk : rows.get k ∈ rows := rows.get_mem _ _
    obtain ⟨i, hi, hnorm⟩ := inv.norm _ hrk
    have heval : w i = ∑ k', c k' * rows.get k' i := by
      rw [← hsum]
      simp
    have hsingle : ∀ k' ∈ Finset.univ, k' ≠ k → c k' * rows.get k' i = 0 := by
      intro k' _ hk'
      have hne : rows.get k' ≠ rows.get k := by
        intro hcontra
        exact hk' ((List.Nodup.get_inj_iff inv.nodup).mp hcontra)
      rw [inv.orth _ hrk _ (rows.get_mem _ _) (fun h => hne h.symm) i hi]
      ring
    rw [Finset.sum_eq_single k hsingle (fun h => absurd (Finset.mem_univ k) h)] at heval
    rw [hnorm, mul_one] at heval
    rw [← heval, hz _ hrk i hi]
  rw [← hsum]
  simp [hc]

/-- Correctness of the executable membership test: a vector reduces to zero
against an echelonized row list exactly when it lies in the row span. -/
theorem reduceAgainst_eq_zero_iff {rows : List (Vec n)} (inv : EchInv rows)
    (v : Vec n) : reduceAgainst rows v = 0 ↔ v ∈ spanL rows := by
  constructor
  · intro h
    have := sub_reduceAgainst_mem_spanL rows v
    rw [h, sub_zero] at this
    exact this
  · intro hv
    refine span_zero_pivots inv (reduceAgainst_mem_spanL hv) ?_
    intro r hr i hi
    exact reduceAgainst_pivot_zero inv hr hi v

theorem memB_iff {rows : List (Vec n)} (inv : EchInv rows) (v : Vec n) :
    memB rows v = true ↔ v ∈ spanL rows := by
  rw [memB, vecIsZero_iff]
  exact reduceAgainst_eq_zero_iff inv v

theorem echelonInsert_of_none {rows : List (Vec n)} {v : Vec n}
    (h : firstNonzero (reduceAgainst rows v) = none) :
    echelonInsert rows v = rows := by
  simp [echelonInsert, h]

theorem echelonInsert_of_some {rows : List (Vec n)} {v : Vec n} {i : Fin n}
    (h : firstNonzero (reduceAgainst rows v) = some i) :
    echelonInsert rows v =
      (rows.map fun r =>
        r - r i • ((reduceAgainst rows v i)⁻¹ • reduceAgainst rows v)) ++
        [(reduceAgainst rows v i)⁻¹ • reduceAgainst rows v] := by
  simp [echelonInsert, h]

theorem spanL_cons_of_mem {rows : List (Vec n)} {v : Vec n}
    (hv : v ∈ spanL rows) : spanL (v :: rows) = spanL rows := by
  refine le_antisymm (spanL_le_iff.mpr ?_) spanL_cons_le
  intro r hr
  rcases List.mem_cons.mp hr with rfl | hr'
  · exact hv
  · exact mem_spanL_of_mem hr'

/-- Inserting a vector into an echelonized row list does not change the
spanned submodule beyond adding the vector. -/
theorem spanL_echelonInsert (rows : List (Vec n)) (v : Vec n) :
    spanL (echelonInsert rows v) = spanL (v :: rows) := by
  have hu : v - reduceAgainst rows v ∈ spanL rows := sub_reduceAgainst_mem_spanL rows v
  cases h : firstNonzero (reduceAgainst rows v) with
  | none =>
    rw [echelonInsert_of_none h]
    rw [firstNonzero_eq_none_iff] at h
    rw [h, sub_zero] at hu
    exact (spanL_cons_of_mem hu).symm
  | some i =>
    have hwi : reduceAgainst rows v i ≠ 0 := firstNonzero_apply_ne h
    rw [echelonInsert_of_some h]
    set w : Vec n := reduceAgainst rows v with hw
    set w1 : Vec n := (w i)⁻¹ • w with hw1
    have hw_mem : w ∈ spanL (v :: rows) := by
      have hv : v ∈ spanL (v :: rows) := mem_spanL_of_mem (List.mem_cons_self v rows)
      have hu' : v - w ∈ spanL (v :: rows) := spanL_cons_le hu
      have := Submodule.sub_mem _ hv hu'
      simpa using this
    have hw1_mem : w1 ∈ spanL (v :: rows) := Submodule.smul_mem _ _ hw_mem
    refine le_antisymm (spanL_le_iff.mpr ?_) (spanL_le_iff.mpr ?_)
    · intro t ht
      rcases List.mem_append.mp ht with hm | hm
      · obtain ⟨r, hr, rfl⟩ := List.mem_map.mp hm
        exact Submodule.sub_mem _ (mem_spanL_of_mem (List.mem_cons_of_mem _ hr))
          (Submodule.smul_mem _ _ hw1_mem)
      · rw [List.mem_singleton.mp hm]
        exact hw1_mem
    · have hrows_le : ∀ r ∈ rows,
          r ∈ spanL ((rows.map fun r => r - r i • w1) ++ [w1]) := by
        intro r hr
        have hm : r - r i • w1 ∈ spanL ((rows.map fun r => r - r i • w1) ++ [w1]) :=
          mem_spanL_of_mem (List.mem_append_left _ (List.mem_map_of_mem _ hr))
        have hw1m : w1 ∈ spanL ((rows.map fun r => r - r i • w1) ++ [w1]) :=
          mem_spanL_of_mem (List.mem_append_right _ (List.mem_singleton_self _))
        have := Submodule.add_mem _ hm (Submodule.smul_mem _ (r i) hw1m)
        simpa using this
      intro t ht
      rcases List.mem_cons.mp ht with rfl | hr'
      · have hv_eq : t = (t - w) + (w i) • w1 := by
          rw [hw1, smul_inv_smul₀ hwi]
          abel
        rw [hv_eq]
        refine Submodule.add_mem _ ?_ (Submodule.smul_mem _ _
          (mem_spanL_of_mem (List.mem_append_right _ (List.mem_singleton_self _))))
        exact spanL_le_iff.mpr hrows_le hu
      · exact hrows_le _ hr'

/-- Clearing the pivot column of a new normalized row from an echelonized
row list and appending the row preserves the echelon invariant. -/
theorem echInv_append_clear {rows : List (Vec n)} (inv : EchInv rows)
    {w1 : Vec n} {i : Fin n} (hp : firstNonzero w1 = some i) (h1 : w1 i = 1)
    (hz : ∀ r ∈ rows, ∀ j, firstNonzero r = some j → w1 j = 0) :
    EchInv ((rows.map fun r => r - r i • w1) ++ [w1]) := by
  have hinotpiv : ∀ r ∈ rows, ∀ j, firstNonzero r = some j → j ≠ i := by
    intro r hr j hj hji
    have := hz r hr j hj
    rw [hji, h1] at this
    exact one_ne_zero this
  have happly : ∀ (r : Vec n) (j : Fin n), (r - r i • w1) j = r j - r i * w1 j := by
    intro r j
    simp
  have hmap_piv : ∀ r ∈ rows, ∀ j, firstNonzero r = some j →
      firstNonzero (r - r i • w1) = some j ∧ (r - r i • w1) j = 1 := by
    intro r hr j hj
    obtain ⟨j', hj', hrj'⟩ := inv.norm r hr
    rw [hj] at hj'
    injection hj' with hjj'
    rw [← hjj'] at hrj'
    by_cases hri : r i = 0
    · have hre : r - r i • w1 = r := by
        rw [hri, zero_smul, sub_zero]
      rw [hre]
      exact ⟨hj, hrj'⟩
    · have hji : j < i := by
        rcases lt_trichotomy j i with hlt | heq | hgt
        · exact hlt
        · exact absurd heq (hinotpiv r hr j hj)
        · exact absurd (firstNonzero_lt_zero hj i hgt) hri
      have hval : (r - r i • w1) j = 1 := by
        rw [happly, firstNonzero_lt_zero hp j hji, mul_zero, sub_zero, hrj']
      refine ⟨firstNonzero_eq_some_iff.mpr ⟨by rw [hval]; exact one_ne_zero, ?_⟩, hval⟩
      intro m hm
      rw [happly, firstNonzero_lt_zero hj m hm,
        firstNonzero_lt_zero hp m (lt_trans hm hji), mul_zero, sub_zero]
  have hmap_at_i : ∀ r : Vec n, (r - r i • w1) i = 0 := by
    intro r
    rw [happly, h1, mul_one, sub_self]
  have hmap_inj : ∀ r ∈ rows, ∀ s ∈ rows, (r - r i • w1) = (s - s i • w1) → r = s := by
    intro r hr s hs heq
    by_contra hne
    obtain ⟨j, hj, _⟩ := inv.norm r hr
    have h1' : (r - r i • w1) j = 1 := (hmap_piv r hr j hj).2
    have h0 : (s - s i • w1) j = 0 := by
      rw [happly, hz r hr j hj, mul_zero, sub_zero]
      exact inv.orth r hr s hs hne j hj
    rw [heq, h0] at h1'
    exact one_ne_zero h1'.symm
  have hw1_notin : ∀ r ∈ rows, (r - r i • w1) ≠ w1 := by
    intro r _ hcontra
    have := hmap_at_i r
    rw [hcontra, h1] at this
    exact one_ne_zero this
  constructor
  · refine List.Nodup.append (inv.nodup.map_on hmap_inj) (List.nodup_singleton _) ?_
    intro t htm hts
    obtain ⟨r, hr, rfl⟩ := List.mem_map.mp htm
    exact hw1_notin r hr (List.mem_singleton.mp hts)
  · intro t ht
    rcases List.mem_append.mp ht with hm | hm
    · obtain ⟨r, hr, rfl⟩ := List.mem_map.mp hm
      obtain ⟨j, hj, _⟩ := inv.norm r hr
      exact ⟨j, (hmap_piv r hr j hj).1, (hmap_piv r hr j hj).2⟩
    · rw [List.mem_singleton.mp hm]
      exact ⟨i, hp, h1⟩
  · intro t ht t' ht' hne m hm
    rcases List.mem_append.mp ht with htm | htm
    · obtain ⟨r, hr, rfl⟩ := List.mem_map.mp htm
      obtain ⟨j, hj, _⟩ := inv.norm r hr
      have hmj : m = j := by
        have hpj := (hmap_piv r hr j hj).1
        rw [hm] at hpj
        exact Option.some.inj hpj
      subst hmj
      rcases List.mem_append.mp ht' with htm' | htm'
      · obtain ⟨s, hs, rfl⟩ := List.mem_map.mp htm'
        have hrs : r ≠ s := by
          intro hcontra
          subst hcontra
          exact hne rfl
        rw [happly, hz r hr m hj, mul_zero, sub_zero]
        exact inv.orth r hr s hs hrs m hj
      · rw [List.mem_singleton.mp htm']
        exact hz r hr m hj
    · have ht_eq : t = w1 := List.mem_singleton.mp htm
      subst ht_eq
      have hmi : m = i := by
        rw [hp] at hm
        exact (Option.some.inj hm).symm
      subst hmi
      rcases List.mem_append.mp ht' with htm' | htm'
      · obtain ⟨s, _, rfl⟩ := List.mem_map.mp htm'
        exact hmap_at_i s
      · exact absurd (List.mem_singleton.mp htm').symm hne

/-- `echelonInsert` preserves the echelon invariant. -/
theorem echInv_echelonInsert {rows : List (Vec n)} (inv : EchInv rows)
    (v : Vec n) : EchInv (echelonInsert rows v) := by
  cases h : firstNonzero (reduceAgainst rows v) with
  | none => rw [echelonInsert_of_none h]; exact inv
  | some i =>
    have hwi : reduceAgainst rows v i ≠ 0 := firstNonzero_apply_ne h
    rw [echelonInsert_of_some h]
    refine echInv_append_clear inv ?_ ?_ ?_
    · rw [firstNonzero_smul (inv_ne_zero hwi), h]
    · simp [inv_mul_cancel₀ hwi]
    · intro r hr j hj
      have := reduceAgainst_pivot_zero inv hr hj v
      simp [this]

theorem echInv_nil : EchInv ([] : List (Vec n)) := by
  constructor <;> simp

theorem spanL_cons (v : Vec n) (rows : List (Vec n)) :
    spanL (v :: rows) = Submodule.span ℚ {v} ⊔ spanL rows := by
  have h : {x | x ∈ v :: rows} = insert v {x | x ∈ rows} := by
    ext x
    simp [List.mem_cons]
  rw [spanL, h, Submodule.span_insert]
  rfl

theorem echInv_foldl {l : List (Vec n)} {acc : List (Vec n)} (hacc : EchInv acc) :
    EchInv (l.foldl echelonInsert acc) := by
  induction l generalizing acc with
  | nil => exact hacc
  | cons v l ih => exact ih (echInv_echelonInsert hacc v)

/-- The output of `echelon` always satisfies the echelon invariant. -/
theorem echInv_echelon (l : List (Vec n)) : EchInv (echelon l) :=
  echInv_foldl echInv_nil

theorem spanL_foldl (l : List (Vec n)) (acc : List (Vec n)) :
    spanL (l.foldl echelonInsert acc) = spanL acc ⊔ spanL l := by
  induction l generalizing acc with
  | nil => simp [spanL_nil]
  | cons v l ih =>
    have h1 : (v :: l).foldl echelonInsert acc = l.foldl echelonInsert (echelonInsert acc v) :=
      rfl
    rw [h1, ih, spanL_echelonInsert, spanL_cons, spanL_cons]
    rw [sup_left_comm, sup_assoc]

/-- Echelonization preserves the span. -/
theorem spanL_echelon (l : List (Vec n)) : spanL (echelon l) = spanL l := by
  rw [echelon, spanL_foldl, spanL_nil, bot_sup_eq]

theorem pivN_eq {r : Vec n} {j : Fin n} (h : firstNonzero r = some j) :
    pivN r = j.val := by
  simp [pivN, h]

theorem echInv_pivots_inj {rows : List (Vec n)} (inv : EchInv rows) :
    ∀ r ∈ rows, ∀ s ∈ rows, pivN r = pivN s → r = s := by
  intro r hr s hs hps
  by_contra hne
  obtain ⟨jr, hjr, hr1⟩ := inv.norm r hr
  obtain ⟨js, hjs, hs1⟩ := inv.norm s hs
  rw [pivN_eq hjr, pivN_eq hjs] at hps
  have hj : jr = js := Fin.ext hps
  subst hj
  have := inv.orth r hr s hs hne jr hjr
  rw [hs1] at this
  exact one_ne_zero this

/-- An echelonized row list has at most `n` rows: pivot columns are
distinct coordinates of `Fin n`. -/
theorem echInv_length_le {rows : List (Vec n)} (inv : EchInv rows) :
    rows.length ≤ n := by
  have hnd : (rows.map pivN).Nodup := inv.nodup.map_on (echInv_pivots_inj inv)
  have hlt : ∀ x ∈ rows.map pivN, x < n := by
    intro x hx
    obtain ⟨r, hr, rfl⟩ := List.mem_map.mp hx
    obtain ⟨j, hj, _⟩ := inv.norm r hr
    rw [pivN_eq hj]
    exact j.isLt
  have hsub : (rows.map pivN).toFinset ⊆ Finset.range n := by
    intro x hx
    rw [List.mem_toFinset] at hx
    rw [Finset.mem_range]
    exact hlt x hx
  have := Finset.card_le_card hsub
  rw [List.toFinset_card_of_nodup hnd, Finset.card_range] at this
  simpa using this

theorem echInv_linearIndependent {rows : List (Vec n)} (inv : EchInv rows) :
    LinearIndependent ℚ rows.get := by
  rw [Fintype.linearIndependent_iff]
  intro c hc k
  have hrk : rows.get k ∈ rows := rows.get_mem _ _
  obtain ⟨i, hi, hnorm⟩ := inv.norm _ hrk
  have heval : (∑ k', c k' • rows.get k') i = (0 : Vec n) i := by rw [hc]
  rw [Finset.sum_apply] at heval
  have hsingle : ∀ k' ∈ Finset.univ, k' ≠ k → (c k' • rows.get k') i = 0 := by
    intro k' _ hk'
    have hne : rows.get k' ≠ rows.get k := by
      intro hcontra
      exact hk' ((List.Nodup.get_inj_iff inv.nodup).mp hcontra)
    rw [Pi.smul_apply, inv.orth _ hrk _ (rows.get_mem _ _) (fun h => hne h.symm) i hi]
    simp
  rw [Finset.sum_eq_single k hsingle (fun h => absurd (Finset.mem_univ k) h)] at heval
  rw [Pi.smul_apply, hnorm] at heval
  simpa using heval

/-- The number of rows of an echelonized list is the dimension of its span. -/
theorem finrank_spanL {rows : List (Vec n)} (inv : EchInv rows) :
    Module.finrank ℚ (spanL rows) = rows.length := by
  rw [spanL_eq_span_range, finrank_span_eq_card (echInv_linearIndependent inv)]
  simp

theorem length_le_of_spanL_le {rows rows' : List (Vec n)}
    (inv : EchInv rows) (inv' : EchInv rows') (h : spanL rows ≤ spanL rows') :
    rows.length ≤ rows'.length := by
  rw [← finrank_spanL inv, ← finrank_spanL inv']
  exact Submodule.finrank_mono h

theorem spanL_eq_of_le_of_length_le {rows rows' : List (Vec n)}
    (inv : EchInv rows) (inv' : EchInv rows') (h : spanL rows ≤ spanL rows')
    (hlen : rows'.length ≤ rows.length) : spanL rows = spanL rows' := by
  refine Submodule.eq_of_le_of_finrank_le h ?_
  rw [finrank_spanL inv, finrank_spanL inv']
  exact hlen

theorem sumSmul_nil (cs : List ℚ) : sumSmul cs ([] : List (Vec n)) = 0 := by
  cases cs <;> rfl

theorem sumSmul_cons (c : ℚ) (cs : List ℚ) (r : Vec n) (rows : List (Vec n)) :
    sumSmul (c :: cs) (r :: rows) = c • r + sumSmul cs rows := rfl

theorem sumSmul_mem {rows : List (Vec n)} {N : Submodule ℚ (Vec n)}
    (h : ∀ r ∈ rows, r ∈ N) (cs : List ℚ) : sumSmul cs rows ∈ N := by
  induction rows generalizing cs with
  | nil => rw [sumSmul_nil]; exact N.zero_mem
  | cons r rows ih =>
    cases cs with
    | nil => exact N.zero_mem
    | cons c cs =>
      rw [sumSmul_cons]
      exact N.add_mem (N.smul_mem _ (h r (List.mem_cons_self _ _)))
        (ih (fun s hs => h s (List.mem_cons_of_mem _ hs)) cs)

theorem sumSmul_append {cs1 cs2 : List ℚ} {rows1 rows2 : List (Vec n)}
    (hlen : cs1.length = rows1.length) :
    sumSmul (cs1 ++ cs2) (rows1 ++ rows2) = sumSmul cs1 rows1 + sumSmul cs2 rows2 := by
  induction rows1 generalizing cs1 with
  | nil =>
    rw [List.length_nil, List.length_eq_zero] at hlen
    subst hlen
    simp [sumSmul_nil]
  | cons r rows ih =>
    cases cs1 with
    | nil => simp at hlen
    | cons c cs =>
      simp only [List.length_cons, Nat.succ_inj] at hlen
      simp only [List.cons_append, sumSmul_cons, ih hlen, add_assoc]

theorem sumSmul_apply_zero {rows : List (Vec n)} {i : Fin n}
    (h : ∀ r ∈ rows, r i = 0) (cs : List ℚ) : sumSmul cs rows i = 0 := by
  induction rows generalizing cs with
  | nil => rw [sumSmul_nil]; rfl
  | cons r rows ih =>
    cases cs with
    | nil => rfl
    | cons c cs =>
      rw [sumSmul_cons]
      have := ih (fun s hs => h s (List.mem_cons_of_mem _ hs)) cs
      simp [this, h r (List.mem_cons_self _ _)]

/-- Evaluating the canonical linear combination at the pivot of a row of an
echelonized list recovers the coordinate at that pivot. -/
theorem sumSmul_coordList_apply {rows : List (Vec n)} (inv : EchInv rows)
    {r : Vec n} (hr : r ∈ rows) {i : Fin n} (hi : firstNonzero r = some i)
    (v : Vec n) : sumSmul (coordList rows v) rows i = v i := by
  obtain ⟨pre, post, rfl⟩ := List.append_of_mem hr
  have hne_pre : ∀ s ∈ pre, s ≠ r := by
    intro s hs hcontra
    subst hcontra
    have := inv.nodup
    rw [List.nodup_append] at this
    exact this.2.2 hs (List.mem_cons_self _ _)
  have hne_post : ∀ s ∈ post, s ≠ r := by
    intro s hs hcontra
    subst hcontra
    have hnd : (s :: post).Nodup := List.Nodup.of_append_right inv.nodup
    rw [List.nodup_cons] at hnd
    exact hnd.1 hs
  have hzero : ∀ s ∈ pre ++ r :: post, s ≠ r → s i = 0 := fun s hs hne =>
    inv.orth r hr s hs (fun h => hne h.symm) i hi
  have hlen : (coordList pre v).length = pre.length := List.length_map _ _
  have hsplit : coordList (pre ++ r :: post) v =
      coordList pre v ++ coordList (r :: post) v := by
    simp [coordList]
  rw [hsplit, sumSmul_append hlen]
  have h1 : sumSmul (coordList pre v) pre i = 0 :=
    sumSmul_apply_zero
      (fun s hs => hzero s (List.mem_append_left _ hs) (hne_pre s hs)) _
  have h2 : coordList (r :: post) v = v i :: coordList post v := by
    simp [coordList, hi]
  have h3 : sumSmul (coordList post v) post i = 0 :=
    sumSmul_apply_zero
      (fun s hs =>
        hzero s (List.mem_append_right _ (List.mem_cons_of_mem _ hs))
          (hne_post s hs)) _
  have h4 : r i = 1 := by
    obtain ⟨j, hj, hr1⟩ := inv.norm r hr
    rw [hi] at hj
    rw [← Option.some.inj hj] at hr1
    exact hr1
  rw [h2, sumSmul_cons]
  simp [h1, h3, h4]

/-- Coordinate correctness: for a member of the span of an echelonized
basis, the canonical linear combination of the coordinates reconstructs the
vector (the defining property of `coordinate_vector`). -/
theorem sumSmul_coordList {rows : List (Vec n)} (inv : EchInv rows)
    {v : Vec n} (hv : v ∈ spanL rows) :
    sumSmul (coordList rows v) rows = v := by
  have hmem : sumSmul (coordList rows v) rows ∈ spanL rows :=
    sumSmul_mem (fun r hr => mem_spanL_of_mem hr) _
  have hdiff : v - sumSmul (coordList rows v) rows ∈ spanL rows :=
    Submodule.sub_mem _ hv hmem
  have hzero : v - sumSmul (coordList rows v) rows = 0 := by
    refine span_zero_pivots inv hdiff ?_
    intro r hr i hi
    have := sumSmul_coordList_apply inv hr hi v
    simp [this]
  have := sub_eq_zero.mp hzero
  exact this.symm

theorem echInv_perm {l l' : List (Vec n)} (hp : l.Perm l') (inv : EchInv l) :
    EchInv l' := by
  constructor
  · exact hp.nodup_iff.mp inv.nodup
  · intro r hr
    exact inv.norm r (hp.mem_iff.mpr hr)
  · intro r hr s hs
    exact inv.orth r (hp.mem_iff.mpr hr) s (hp.mem_iff.mpr hs)

theorem spanL_perm {l l' : List (Vec n)} (hp : l.Perm l') : spanL l = spanL l' := by
  unfold spanL
  congr 1
  ext x
  exact hp.mem_iff

theorem sortByPiv_perm (rows : List (Vec n)) : (sortByPiv rows).Perm rows :=
  List.perm_insertionSort _ _

theorem sortByPiv_sorted (rows : List (Vec n)) : (sortByPiv rows).Sorted pivLE :=
  List.sorted_insertionSort _ _

theorem echInv_sortByPiv {rows : List (Vec n)} (inv : EchInv rows) :
    EchInv (sortByPiv rows) :=
  echInv_perm (sortByPiv_perm rows).symm inv

theorem spanL_sortByPiv (rows : List (Vec n)) : spanL (sortByPiv rows) = spanL rows :=
  spanL_perm (sortByPiv_perm rows)

/-- The pivot of any nonzero member of the span of an echelonized list is
the pivot of one of its rows. -/
theorem exists_row_pivot_of_mem_span {rows : List (Vec n)} (inv : EchInv rows)
    {v : Vec n} (hv : v ∈ spanL rows) {i : Fin n}
    (hfv : firstNonzero v = some i) : ∃ r ∈ rows, firstNonzero r = some i := by
  rw [spanL_eq_span_range] at hv
  obtain ⟨c, hsum⟩ := (mem_span_range_iff_exists_fun ℚ).mp hv
  set K := Finset.univ.filter (fun k => c k ≠ 0) with hK
  have hKne : K.Nonempty := by
    by_contra hne
    rw [Finset.not_nonempty_iff_eq_empty] at hne
    have hc0 : ∀ k, c k = 0 := by
      intro k
      by_contra hck
      have hkK : k ∈ K := by
        rw [hK]
        simp [hck]
      rw [hne] at hkK
      exact absurd hkK (Finset.not_mem_empty k)
    have hv0 : v = 0 := by
      rw [← hsum]
      simp [hc0]
    rw [← firstNonzero_eq_none_iff] at hv0
    rw [hv0] at hfv
    exact Option.noConfusion hfv
  obtain ⟨k0, hk0K, hk0min⟩ := Finset.exists_min_image K (fun k => pivN (rows.get k)) hKne
  obtain ⟨i0, hi0, hnorm0⟩ := inv.norm _ (rows.get_mem k0.val k0.isLt)
  have hck0 : c k0 ≠ 0 := by
    rw [hK] at hk0K
    exact (Finset.mem_filter.mp hk0K).2
  have hfv0 : firstNonzero v = some i0 := by
    rw [firstNonzero_eq_some_iff]
    constructor
    · have heval : v i0 = ∑ k, (c k • rows.get k) i0 := by
        rw [← hsum]
        simp
      have hsingle : ∀ k ∈ Finset.univ, k ≠ k0 → (c k • rows.get k) i0 = 0 := by
        intro k _ hk
        have hne : rows.get k ≠ rows.get k0 := by
          intro hcontra
          exact hk ((List.Nodup.get_inj_iff inv.nodup).mp hcontra)
        rw [Pi.smul_apply,
          inv.orth _ (rows.get_mem _ _) _ (rows.get_mem _ _) (fun h => hne h.symm) i0 hi0]
        simp
      rw [Finset.sum_eq_single k0 hsingle (fun h => absurd (Finset.mem_univ k0) h)] at heval
      rw [Pi.smul_apply, hnorm0] at heval
      simpa [heval] using hck0
    · intro m hm
      have hrowz : ∀ k, c k ≠ 0 → rows.get k m = 0 := by
        intro k hck
        have hkK : k ∈ K := by
          rw [hK]
          simp [hck]
        obtain ⟨ik, hik, _⟩ := inv.norm _ (rows.get_mem k.val k.isLt)
        have hle : pivN (rows.get k0) ≤ pivN (rows.get k) := hk0min k hkK
        rw [pivN_eq hi0, pivN_eq hik] at hle
        have hmik : m < ik := lt_of_lt_of_le hm (by exact_mod_cast hle)
        exact firstNonzero_lt_zero hik m hmik
      have heval : v m = ∑ k, (c k • rows.get k) m := by
        rw [← hsum]
        simp
      rw [heval]
      refine Finset.sum_eq_zero ?_
      intro k _
      by_cases hck : c k = 0
      · simp [hck]
      · rw [Pi.smul_apply, hrowz k hck]
        simp
  rw [hfv] at hfv0
  have := Option.some.inj hfv0
  subst this
  exact ⟨rows.get k0, rows.get_mem _ _, hi0⟩

theorem echInv_of_cons {a : Vec n} {t : List (Vec n)} (inv : EchInv (a :: t)) :
    EchInv t := by
  constructor
  · exact (List.nodup_cons.mp inv.nodup).2
  · intro r hr
    exact inv.norm r (List.mem_cons_of_mem _ hr)
  · intro r hr s hs
    exact inv.orth r (List.mem_cons_of_mem _ hr) s (List.mem_cons_of_mem _ hs)

/-- A member of the span of `a :: t` that vanishes at the pivot of `a`
already lies in the span of `t`. -/
theorem mem_spanL_tail {a : Vec n} {t : List (Vec n)} (inv : EchInv (a :: t))
    {ia : Fin n} (hpa : firstNonzero a = some ia) {v : Vec n}
    (hv : v ∈ spanL (a :: t)) (hvia : v ia = 0) : v ∈ spanL t := by
  have hrepr := sumSmul_coordList inv hv
  have hcoord : coordList (a :: t) v = v ia :: coordList t v := by
    simp [coordList, hpa]
  rw [hcoord, sumSmul_cons, hvia, zero_smul, zero_add] at hrepr
  rw [← hrepr]
  exact sumSmul_mem (fun r hr => mem_spanL_of_mem hr) _

theorem pivN_head_le {b : Vec n} {t2 : List (Vec n)} {a : Vec n}
    (inv2 : EchInv (b :: t2)) (hs2 : (b :: t2).Sorted pivLE)
    (ha : a ∈ spanL (b :: t2)) {ia : Fin n}
    (hpa : firstNonzero a = some ia) : pivN b ≤ pivN a := by
  obtain ⟨s, hs, hps⟩ := exists_row_pivot_of_mem_span inv2 ha hpa
  have hpsa : pivN s = pivN a := by
    rw [pivN_eq hps, pivN_eq hpa]
  rcases List.mem_cons.mp hs with rfl | hs'
  · rw [hpsa]
  · rw [← hpsa]
    exact List.rel_of_sorted_cons hs2 s hs'

/-- Uniqueness of the sorted echelonized basis: two pivot-sorted row lists
satisfying the echelon invariant with the same span are equal. -/
theorem echInv_sorted_unique {r1 : List (Vec n)} :
    ∀ {r2 : List (Vec n)}, EchInv r1 → EchInv r2 →
      r1.Sorted pivLE → r2.Sorted pivLE → spanL r1 = spanL r2 → r1 = r2 := by
  induction r1 with
  | nil =>
    intro r2 _ inv2 _ _ hspan
    cases r2 with
    | nil => rfl
    | cons b t2 =>
      exfalso
      have hb : b ∈ spanL ([] : List (Vec n)) := by
        rw [hspan]
        exact mem_spanL_of_mem (List.mem_cons_self b t2)
      rw [spanL_nil, Submodule.mem_bot] at hb
      obtain ⟨j, _, h1⟩ := inv2.norm b (List.mem_cons_self b t2)
      rw [hb] at h1
      exact one_ne_zero h1.symm
  | cons a t1 ih =>
    intro r2 inv1 inv2 hs1 hs2 hspan
    cases r2 with
    | nil =>
      exfalso
      have ha : a ∈ spanL ([] : List (Vec n)) := by
        rw [← hspan]
        exact mem_spanL_of_mem (List.mem_cons_self a t1)
      rw [spanL_nil, Submodule.mem_bot] at ha
      obtain ⟨j, _, h1⟩ := inv1.norm a (List.mem_cons_self a t1)
      rw [ha] at h1
      exact one_ne_zero h1.symm
    | cons b t2 =>
      obtain ⟨ia, hpa, ha1⟩ := inv1.norm a (List.mem_cons_self a t1)
      obtain ⟨ib, hpb, hb1⟩ := inv2.norm b (List.mem_cons_self b t2)
      have hamem2 : a ∈ spanL (b :: t2) := by
        rw [← hspan]
        exact mem_spanL_of_mem (List.mem_cons_self a t1)
      have hbmem1 : b ∈ spanL (a :: t1) := by
        rw [hspan]
        exact mem_spanL_of_mem (List.mem_cons_self b t2)
      have hple : pivN b ≤ pivN a := pivN_head_le inv2 hs2 hamem2 hpa
      have hple' : pivN a ≤ pivN b := by
        refine pivN_head_le inv1 hs1 ?_ hpb
        rw [hspan]
        exact mem_spanL_of_mem (List.mem_cons_self b t2)
      have hpiv_eq : pivN a = pivN b := le_antisymm hple' hple
      have hia_ib : ia = ib := by
        rw [pivN_eq hpa, pivN_eq hpb] at hpiv_eq
        exact Fin.ext hpiv_eq
      subst hia_ib
      have hab : a = b := by
        have hdiff : a - b ∈ spanL (a :: t1) :=
          Submodule.sub_mem _ (mem_spanL_of_mem (List.mem_cons_self a t1)) hbmem1
        have hzero : ∀ r ∈ a :: t1, ∀ j, firstNonzero r = some j → (a - b) j = 0 := by
          intro r hr j hj
          rcases List.mem_cons.mp hr with rfl | hr'
          · rw [hpa] at hj
            have hj' := Option.some.inj hj
            subst hj'
            simp [ha1, hb1]
          · have haj : a j = 0 := by
              have hne : a ≠ r := by
                intro hcontra
                exact (List.nodup_cons.mp inv1.nodup).1 (hcontra ▸ hr')
              exact inv1.orth r hr a (List.mem_cons_self a t1) (fun h => hne h.symm) j hj
            have hbj : b j = 0 := by
              have hrmem2 : r ∈ spanL (b :: t2) := by
                rw [← hspan]
                exact mem_spanL_of_mem hr
              obtain ⟨s, hs, hps⟩ := exists_row_pivot_of_mem_span inv2 hrmem2 hj
              rcases List.mem_cons.mp hs with rfl | hs'
              · exfalso
                rw [hpb] at hps
                have hj_ia : j = ia := (Option.some.inj hps).symm
                subst hj_ia
                have : r = a :=
                  echInv_pivots_inj inv1 r hr a (List.mem_cons_self a t1)
                    (by rw [pivN_eq hj, pivN_eq hpa])
                exact (List.nodup_cons.mp inv1.nodup).1 (this ▸ hr')
              · have hne : s ≠ b := by
                  intro hcontra
                  exact (List.nodup_cons.mp inv2.nodup).1 (hcontra ▸ hs')
                exact inv2.orth s hs b (List.mem_cons_self b t2) (fun h => hne h) j hps
            simp [haj, hbj]
        have := span_zero_pivots inv1 hdiff hzero
        exact sub_eq_zero.mp this
      subst hab
      have htail : spanL t1 = spanL t2 := by
        have h12 : spanL t1 ≤ spanL t2 := by
          refine spanL_le_iff.mpr ?_
          intro r hr
          refine mem_spanL_tail inv2 hpb ?_ ?_
          · rw [← hspan]
            exact mem_spanL_of_mem (List.mem_cons_of_mem _ hr)
          · have hne : a ≠ r := by
              intro hcontra
              exact (List.nodup_cons.mp inv1.nodup).1 (hcontra ▸ hr)
            exact inv1.orth a (List.mem_cons_self a t1) r (List.mem_cons_of_mem _ hr)
              (fun h => hne h) ia hpa
        have h21 : spanL t2 ≤ spanL t1 := by
          refine spanL_le_iff.mpr ?_
          intro r hr
          refine mem_spanL_tail inv1 hpa ?_ ?_
          · rw [hspan]
            exact mem_spanL_of_mem (List.mem_cons_of_mem _ hr)
          · have hne : a ≠ r := by
              intro hcontra
              exact (List.nodup_cons.mp inv2.nodup).1 (hcontra ▸ hr)
            exact inv2.orth a (List.mem_cons_self a t2) r (List.mem_cons_of_mem _ hr)
              (fun h => hne h) ia hpb
        exact le_antisymm h12 h21
      have := ih (echInv_of_cons inv1) (echInv_of_cons inv2)
        hs1.of_cons hs2.of_cons htail
      rw [this]

theorem bracketVec_add_left (L : LieAlg n) (x x' y : Vec n) :
    bracketVec L (x + x') y = bracketVec L x y + bracketVec L x' y := by
  funext k
  simp only [bracketVec, Pi.add_apply]
  rw [← Finset.sum_add_distrib]
  refine Finset.sum_congr rfl fun i _ => ?_
  rw [← Finset.sum_add_distrib]
  refine Finset.sum_congr rfl fun j _ => ?_
  ring

theorem bracketVec_add_right (L : LieAlg n) (x y y' : Vec n) :
    bracketVec L x (y + y') = bracketVec L x y + bracketVec L x y' := by
  funext k
  simp only [bracketVec, Pi.add_apply]
  rw [← Finset.sum_add_distrib]
  refine Finset.sum_congr rfl fun i _ => ?_
  rw [← Finset.sum_add_distrib]
  refine Finset.sum_congr rfl fun j _ => ?_
  ring

theorem bracketVec_smul_left (L : LieAlg n) (a : ℚ) (x y : Vec n) :
    bracketVec L (a • x) y = a • bracketVec L x y := by
  funext k
  simp only [bracketVec, Pi.smul_apply, smul_eq_mul]
  rw [Finset.mul_sum]
  refine Finset.sum_congr rfl fun i _ => ?_
  rw [Finset.mul_sum]
  refine Finset.sum_congr rfl fun j _ => ?_
  ring

theorem bracketVec_smul_right (L : LieAlg n) (a : ℚ) (x y : Vec n) :
    bracketVec L x (a • y) = a • bracketVec L x y := by
  funext k
  simp only [bracketVec, Pi.smul_apply, smul_eq_mul]
  rw [Finset.mul_sum]
  refine Finset.sum_congr rfl fun i _ => ?_
  rw [Finset.mul_sum]
  refine Finset.sum_congr rfl fun j _ => ?_
  ring

theorem bracketVec_zero_left (L : LieAlg n) (y : Vec n) :
    bracketVec L 0 y = 0 := by
  funext k
  simp [bracketVec]

theorem bracketVec_zero_right (L : LieAlg n) (x : Vec n) :
    bracketVec L x 0 = 0 := by
  funext k
  simp [bracketVec]

/-- Bilinearity transports bracket closure from the rows of a spanning list
to the whole span. -/
theorem bracketVec_mem_span {L : LieAlg n} {rows : List (Vec n)}
    {N : Submodule ℚ (Vec n)}
    (hN : ∀ v ∈ rows, ∀ w ∈ rows, bracketVec L v w ∈ N) :
    ∀ v ∈ spanL rows, ∀ w ∈ spanL rows, bracketVec L v w ∈ N := by
  intro v hv
  refine Submodule.span_induction ?_ ?_ ?_ ?_ hv
  · intro x hx w hw
    refine Submodule.span_induction ?_ ?_ ?_ ?_ hw
    · intro y hy
      exact hN x hx y hy
    · rw [bracketVec_zero_right]
      exact N.zero_mem
    · intro y z _ _ hy hz
      rw [bracketVec_add_right]
      exact N.add_mem hy hz
    · intro a y _ hy
      rw [bracketVec_smul_right]
      exact N.smul_mem a hy
  · intro w _
    rw [bracketVec_zero_left]
    exact N.zero_mem
  · intro x y _ _ hpx hpy w hw
    rw [bracketVec_add_left]
    exact N.add_mem (hpx w hw) (hpy w hw)
  · intro a x _ hpx w hw
    rw [bracketVec_smul_left]
    exact N.smul_mem a (hpx w hw)

theorem echInv_closureStep (L : LieAlg n) (sm : List (Vec n)) :
    EchInv (closureStep L sm) :=
  echInv_echelon _

theorem spanL_append (l1 l2 : List (Vec n)) :
    spanL (l1 ++ l2) = spanL l1 ⊔ spanL l2 := by
  unfold spanL
  rw [← Submodule.span_union]
  congr 1
  ext x
  simp [List.mem_append]

theorem spanL_le_closureStep (L : LieAlg n) (sm : List (Vec n)) :
    spanL sm ≤ spanL (closureStep L sm) := by
  rw [closureStep, spanL_echelon, spanL_append]
  exact le_sup_left

theorem bracket_mem_closureStep {L : LieAlg n} {sm : List (Vec n)}
    {v w : Vec n} (hv : v ∈ sm) (hw : w ∈ sm) :
    bracketVec L v w ∈ spanL (closureStep L sm) := by
  rw [closureStep, spanL_echelon]
  refine mem_spanL_of_mem (List.mem_append_right _ ?_)
  rw [List.mem_flatMap]
  exact ⟨v, hv, List.mem_map_of_mem _ hw⟩

theorem closureStep_le_closed {L : LieAlg n} {sm : List (Vec n)}
    {N : Submodule ℚ (Vec n)} (hcl : BracketClosed L N) (hle : spanL sm ≤ N) :
    spanL (closureStep L sm) ≤ N := by
  rw [closureStep, spanL_echelon, spanL_append, sup_le_iff]
  refine ⟨hle, ?_⟩
  rw [spanL_le_iff]
  intro r hr
  rw [List.mem_flatMap] at hr
  obtain ⟨v, hv, hr⟩ := hr
  obtain ⟨w, hw, rfl⟩ := List.mem_map.mp hr
  exact hcl v (hle (mem_spanL_of_mem hv)) w (hle (mem_spanL_of_mem hw))

theorem basisLoop_succ (L : LieAlg n) (f d : ℕ) (sm : List (Vec n)) :
    basisLoop L (f + 1) d sm =
      if d < sm.length then basisLoop L f sm.length (closureStep L sm) else sm :=
  rfl

theorem echInv_basisLoop {L : LieAlg n} :
    ∀ (f : ℕ) {d : ℕ} {sm : List (Vec n)}, EchInv sm → EchInv (basisLoop L f d sm)
  | 0, _, _, inv => inv
  | f + 1, d, sm, inv => by
    rw [basisLoop_succ]
    split
    · exact echInv_basisLoop f (echInv_closureStep L sm)
    · exact inv

theorem spanL_le_basisLoop {L : LieAlg n} :
    ∀ (f : ℕ) (d : ℕ) (sm : List (Vec n)), spanL sm ≤ spanL (basisLoop L f d sm)
  | 0, _, _ => le_refl _
  | f + 1, d, sm => by
    rw [basisLoop_succ]
    split
    · exact le_trans (spanL_le_closureStep L sm) (spanL_le_basisLoop f _ _)
    · exact le_refl _

theorem basisLoop_le_closed {L : LieAlg n} {N : Submodule ℚ (Vec n)}
    (hcl : BracketClosed L N) :
    ∀ (f : ℕ) (d : ℕ) (sm : List (Vec n)), spanL sm ≤ N →
      spanL (basisLoop L f d sm) ≤ N
  | 0, _, _, hle => hle
  | f + 1, d, sm, hle => by
    rw [basisLoop_succ]
    split
    · exact basisLoop_le_closed hcl f _ _ (closureStep_le_closed hcl hle)
    · exact hle

/-- At exit, the span of the loop state is bracket-closed: whenever the
guard fails the previous saturation pass did not grow the dimension, so the
pass's bracket vectors were already in the span. -/
theorem basisLoop_closed {L : LieAlg n} :
    ∀ (f : ℕ) (d : ℕ) (sm : List (Vec n)), EchInv sm → n - d < f →
      (sm.length ≤ d → BracketClosed L (spanL sm)) →
      BracketClosed L (spanL (basisLoop L f d sm)) := by
  intro f
  induction f with
  | zero =>
    intro d sm _ hfuel _
    exact absurd hfuel (Nat.not_lt_zero _)
  | succ f ih =>
    intro d sm inv hfuel hstop
    rw [basisLoop_succ]
    by_cases hd : d < sm.length
    · rw [if_pos hd]
      have hlen_le : sm.length ≤ n := echInv_length_le inv
      refine ih sm.length (closureStep L sm) (echInv_closureStep L sm)
        (by omega) ?_
      intro hsteplen
      have hspan_eq : spanL sm = spanL (closureStep L sm) :=
        spanL_eq_of_le_of_length_le inv (echInv_closureStep L sm)
          (spanL_le_closureStep L sm) hsteplen
      intro v hv w hw
      rw [← hspan_eq] at hv hw
      refine bracketVec_mem_span ?_ v hv w hw
      intro a ha b hb
      exact bracket_mem_closureStep ha hb
    · rw [if_neg hd]
      exact hstop (le_of_not_lt hd)

/-- Fuel irrelevance of the loop beyond `n - d` remaining steps. -/
theorem basisLoop_fuel {L : LieAlg n} :
    ∀ (f1 f2 : ℕ) (d : ℕ) (sm : List (Vec n)), EchInv sm → n - d < f1 →
      n - d < f2 → basisLoop L f1 d sm = basisLoop L f2 d sm := by
  intro f1
  induction f1 with
  | zero =>
    intro f2 d sm _ h1 _
    exact absurd h1 (Nat.not_lt_zero _)
  | succ f1 ih =>
    intro f2 d sm inv h1 h2
    cases f2 with
    | zero => exact absurd h2 (Nat.not_lt_zero _)
    | succ f2 =>
      rw [basisLoop_succ, basisLoop_succ]
      by_cases hd : d < sm.length
      · rw [if_pos hd, if_pos hd]
        have hlen_le : sm.length ≤ n := echInv_length_le inv
        exact ih f2 sm.length (closureStep L sm) (echInv_closureStep L sm)
          (by omega) (by omega)
      · rw [if_neg hd, if_neg hd]

theorem echInv_subBasisList (L : LieAlg n) (gens : List (Vec n)) :
    EchInv (subBasisList L gens) :=
  echInv_sortByPiv (echInv_basisLoop _ (echInv_echelon gens))

theorem sorted_subBasisList (L : LieAlg n) (gens : List (Vec n)) :
    (subBasisList L gens).Sorted pivLE :=
  sortByPiv_sorted _

theorem spanL_subBasisList (L : LieAlg n) (gens : List (Vec n)) :
    spanL (subBasisList L gens) = spanL (basisLoop L (n + 1) 0 (echelon gens)) :=
  spanL_sortByPiv _

theorem gens_le_spanL_subBasisList (L : LieAlg n) (gens : List (Vec n)) :
    spanL gens ≤ spanL (subBasisList L gens) := by
  rw [spanL_subBasisList, ← spanL_echelon gens]
  exact spanL_le_basisLoop _ _ _

/-- The span of the computed basis is bracket-closed. -/
theorem subBasisList_closed (L : LieAlg n) (gens : List (Vec n)) :
    BracketClosed L (spanL (subBasisList L gens)) := by
  rw [spanL_subBasisList]
  refine basisLoop_closed (n + 1) 0 (echelon gens) (echInv_echelon gens)
    (by omega) ?_
  intro hlen0
  have hnil : echelon gens = [] := List.length_eq_zero.mp (Nat.le_zero.mp hlen0)
  rw [hnil, spanL_nil]
  intro v hv w hw
  rw [Submodule.mem_bot] at hv hw ⊢
  subst hv
  subst hw
  exact bracketVec_zero_left L 0

/-- Minimality: the span of the computed basis is contained in every
bracket-closed submodule containing the generators. -/
theorem subBasisList_minimal {L : LieAlg n} {gens : List (Vec n)}
    {N : Submodule ℚ (Vec n)} (hcl : BracketClosed L N)
    (hg : ∀ g ∈ gens, g ∈ N) : spanL (subBasisList L gens) ≤ N := by
  rw [spanL_subBasisList]
  refine basisLoop_le_closed hcl _ _ _ ?_
  rw [spanL_echelon]
  exact spanL_le_iff.mpr hg

theorem subBasisList_nil (L : LieAlg n) : subBasisList L [] = [] := rfl

/-- The computed basis depends only on the span of the generator list. -/
theorem subBasisList_span_congr {L : LieAlg n} {g1 g2 : List (Vec n)}
    (h : spanL g1 = spanL g2) : subBasisList L g1 = subBasisList L g2 := by
  refine echInv_sorted_unique (echInv_subBasisList L g1) (echInv_subBasisList L g2)
    (sorted_subBasisList L g1) (sorted_subBasisList L g2) ?_
  refine le_antisymm ?_ ?_
  · refine subBasisList_minimal (subBasisList_closed L g2) ?_
    intro g hg
    refine gens_le_spanL_subBasisList L g2 ?_
    rw [← h]
    exact mem_spanL_of_mem hg
  · refine subBasisList_minimal (subBasisList_closed L g1) ?_
    intro g hg
    refine gens_le_spanL_subBasisList L g1 ?_
    rw [h]
    exact mem_spanL_of_mem hg

theorem spanL_filter_nonzero (gens : List (Vec n)) :
    spanL (gens.filter fun g => !vecIsZero g) = spanL gens := by
  refine le_antisymm
    (spanL_le_spanL_of_subset fun r hr => (List.mem_filter.mp hr).1) ?_
  rw [spanL_le_iff]
  intro r hr
  by_cases hrz : r = 0
  · rw [hrz]
    exact Submodule.zero_mem _
  · refine mem_spanL_of_mem ?_
    rw [List.mem_filter]
    refine ⟨hr, ?_⟩
    rw [Bool.not_eq_true']
    exact vecIsZero_eq_false_iff.mpr hrz

theorem moduleSpan_mkSub (L : LieAlg n) (gens : List (Vec n)) :
    (mkSub L gens).moduleSpan =
      spanL (subBasisList L (gens.filter fun g => !vecIsZero g)) :=
  rfl

theorem gen_mem_moduleSpan {L : LieAlg n} {gens : List (Vec n)} {g : Vec n}
    (hg : g ∈ gens) : g ∈ (mkSub L gens).moduleSpan := by
  rw [moduleSpan_mkSub]
  refine gens_le_spanL_subBasisList L _ ?_
  rw [spanL_filter_nonzero]
  exact mem_spanL_of_mem hg

theorem moduleSpan_closed {L : LieAlg n} (S : Sub n L) :
    BracketClosed L S.moduleSpan :=
  subBasisList_closed L S.gens

theorem mem_moduleSpan_iff_containsVec {L : LieAlg n} (S : Sub n L) (x : Vec n) :
    S.containsVec x = true ↔ x ∈ S.moduleSpan :=
  memB_iff (echInv_subBasisList L S.gens) x

theorem retract_ok {L : LieAlg n} {S : Sub n L} {x : Vec n}
    (hx : x ∈ S.moduleSpan) : S.retract x = Except.ok ⟨x⟩ := by
  rw [Sub.retract, if_pos ((mem_moduleSpan_iff_containsVec S x).mpr hx)]

theorem retract_error {L : LieAlg n} {S : Sub n L} {x : Vec n}
    (hx : x ∉ S.moduleSpan) :
    S.retract x = Except.error (PyExc.valueError x S) := by
  rw [Sub.retract, if_neg]
  intro hc
  exact hx ((mem_moduleSpan_iff_containsVec S x).mp hc)

theorem mkSub_gens_e0 : (mkSub Abel2 [e0]).gens = [e0] := by decide

theorem inv_smul_e0 : (e0 0)⁻¹ • e0 = e0 := by
  funext i
  fin_cases i <;> norm_num [e0]

theorem echelon_e0 : echelon [e0] = [e0] := by
  have h1 : echelon [e0] = [(e0 0)⁻¹ • e0] := rfl
  rw [h1, inv_smul_e0]

theorem bracketVec_Abel2 (x y : Vec 2) : bracketVec Abel2 x y = 0 := by
  funext k
  simp [bracketVec, Abel2]

theorem reduce_e0_zero : reduceAgainst [e0] 0 = 0 := by
  have h : reduceAgainst [e0] 0 = reduceBy 0 e0 := rfl
  rw [h, reduceBy, show firstNonzero e0 = some 0 from rfl]
  funext i
  fin_cases i <;> norm_num [e0]

theorem closureStep_Abel2_e0 : closureStep Abel2 [e0] = [e0] := by
  rw [closureStep,
    show ([e0].flatMap fun v => [e0].map fun w => bracketVec Abel2 v w) =
      [bracketVec Abel2 e0 e0] from rfl,
    bracketVec_Abel2]
  show echelon [e0, 0] = [e0]
  rw [show echelon [e0, 0] = echelonInsert (echelonInsert [] e0) 0 from rfl,
    show echelonInsert [] e0 = [(e0 0)⁻¹ • e0] from rfl, inv_smul_e0]
  rw [echelonInsert, reduce_e0_zero, show firstNonzero (0 : Vec 2) = none from rfl]

/-- The subalgebra of the two dimensional abelian algebra generated by the
first basis vector has that vector as its echelonized basis. -/
theorem basisList_S1 : (mkSub Abel2 [e0]).basisList = [e0] := by
  rw [Sub.basisList, mkSub_gens_e0, subBasisList, echelon_e0]
  rw [basisLoop_succ, if_pos (by norm_num), closureStep_Abel2_e0]
  rw [basisLoop_succ, if_neg (by norm_num)]
  rfl

theorem e0_mem_S1 : e0 ∈ (mkSub Abel2 [e0]).moduleSpan :=
  gen_mem_moduleSpan (List.mem_cons_self e0 [])

/-- Claim C1: for every finite list of generators of a finite dimensional
ambient Lie algebra, the submodule computed by `basis()`/`module()` is the
minimal bracket-closed submodule of the ambient coordinate space containing
the generators' coordinate vectors: it contains every generator, it is
closed under the bracket, it is contained in every other submodule with
those two properties, and the empty generator list yields the zero
submodule. -/
theorem basis_module_minimal_closure (L : LieAlg n) (gens : List (Vec n)) :
    (∀ g ∈ gens, g ∈ (mkSub L gens).moduleSpan) ∧
    BracketClosed L (mkSub L gens).moduleSpan ∧
    (∀ N : Submodule ℚ (Vec n), BracketClosed L N → (∀ g ∈ gens, g ∈ N) →
      (mkSub L gens).moduleSpan ≤ N) ∧
    (gens = [] → (mkSub L gens).moduleSpan = ⊥) := by
  refine ⟨fun g hg => gen_mem_moduleSpan hg, moduleSpan_closed _, ?_, ?_⟩
  · intro N hcl hg
    rw [moduleSpan_mkSub]
    refine subBasisList_minimal hcl ?_
    intro g hgf
    exact hg g (List.mem_filter.mp hgf).1
  · intro h
    subst h
    rw [moduleSpan_mkSub]
    rw [show ([] : List (Vec n)).filter (fun g => !vecIsZero g) = [] from rfl,
      subBasisList_nil, spanL_nil]

/-- Witness for C1 on the Heisenberg algebra: the minimality conjunct
applied to the full space, whose hypotheses hold concretely. -/
theorem basis_module_minimal_closure_witness :
    (∀ v ∈ (⊤ : Submodule ℚ (Vec 3)), ∀ w ∈ (⊤ : Submodule ℚ (Vec 3)),
      bracketVec Heis v w ∈ (⊤ : Submodule ℚ (Vec 3))) ∧
    (∀ g ∈ [vX], g ∈ (⊤ : Submodule ℚ (Vec 3))) ∧
    (mkSub Heis [vX]).moduleSpan ≤ ⊤ :=
  ⟨fun _ _ _ _ => Submodule.mem_top, fun _ _ => Submodule.mem_top,
   (basis_module_minimal_closure Heis [vX]).2.2.1 ⊤
     (fun _ _ _ _ => Submodule.mem_top) (fun _ _ => Submodule.mem_top)⟩

/-- Claim C2: `retract(x)` raises a `ValueError` carrying the offending
element and the subalgebra exactly when the coordinate vector of `x` is not
in the subalgebra's module; when it is, the retract succeeds by wrapping
`x` directly and `lift(retract(x)) = x` exactly, `lift` being total. -/
theorem retract_error_iff_and_lift_round_trip {L : LieAlg n} (S : Sub n L)
    (x : Vec n) :
    (S.retract x = Except.error (PyExc.valueError x S) ↔ x ∉ S.moduleSpan) ∧
    (x ∈ S.moduleSpan →
      S.retract x = Except.ok ⟨x⟩ ∧ S.lift (⟨x⟩ : SubElem S) = x) := by
  constructor
  · constructor
    · intro herr hmem
      rw [retract_ok hmem] at herr
      exact Except.noConfusion herr
    · intro hmem
      exact retract_error hmem
  · intro hmem
    exact ⟨retract_ok hmem, rfl⟩

/-- Witness for C2: in the subalgebra of the abelian algebra generated by
`e0`, the element `e0` lies in the module and retracts then lifts to
itself. -/
theorem retract_error_iff_and_lift_round_trip_witness :
    e0 ∈ (mkSub Abel2 [e0]).moduleSpan ∧
    (mkSub Abel2 [e0]).retract e0 = Except.ok ⟨e0⟩ ∧
    (mkSub Abel2 [e0]).lift (⟨e0⟩ : SubElem (mkSub Abel2 [e0])) = e0 :=
  ⟨e0_mem_S1,
   (retract_error_iff_and_lift_round_trip (mkSub Abel2 [e0]) e0).2 e0_mem_S1⟩

/-- Claim C3: the element-level bracket (ambient bracket of the wrapped
values followed by `retract` into the parent) never raises on elements
whose values lie in the computed module, because that module is
bracket-closed. -/
theorem element_bracket_never_fails {L : LieAlg n} {S : Sub n L}
    (u x : SubElem S) (hu : u.value ∈ S.moduleSpan)
    (hx : x.value ∈ S.moduleSpan) :
    u.bracket x = Except.ok ⟨bracketVec L u.value x.value⟩ := by
  rw [SubElem.bracket]
  exact retract_ok (moduleSpan_closed S u.value hu x.value hx)

/-- Witness for C3 on the abelian subalgebra generated by `e0`. -/
theorem element_bracket_never_fails_witness :
    e0 ∈ (mkSub Abel2 [e0]).moduleSpan ∧
    SubElem.bracket (S := mkSub Abel2 [e0]) ⟨e0⟩ ⟨e0⟩ =
      Except.ok ⟨bracketVec Abel2 e0 e0⟩ :=
  ⟨e0_mem_S1, element_bracket_never_fails ⟨e0⟩ ⟨e0⟩ e0_mem_S1 e0_mem_S1⟩

theorem all_memB_iff {L : LieAlg n} (S : Sub n L) (rows : List (Vec n)) :
    (rows.all fun r => memB S.basisList r) = true ↔ spanL rows ≤ S.moduleSpan := by
  rw [List.all_eq_true, spanL_le_iff]
  constructor
  · intro h r hr
    exact (mem_moduleSpan_iff_containsVec S r).mp (h r hr)
  · intro h r hr
    exact (mem_moduleSpan_iff_containsVec S r).mpr (h r hr)

/-- Claim C4: `is_ideal(A)` returns true when `A` equals the subalgebra
itself; otherwise, when the bracket matrix of all `[b, a]` for `b` in the
subalgebra's basis and `a` in `A`'s basis can be built, it returns true
exactly when the row space of those bracket vectors is contained in the
subalgebra's module; and when the bracket construction fails for
type/coercion reasons it returns false instead of propagating the error. -/
theorem is_ideal_spec {L : LieAlg n} (S : Sub n L) (A : IdealCand n L) :
    (A.eqSub S = true → S.isIdeal A = true) ∧
    (A.eqSub S = false → ∀ rows, bracketRows S A = some rows →
      (S.isIdeal A = true ↔ spanL rows ≤ S.moduleSpan)) ∧
    (A.eqSub S = false → bracketRows S A = none → S.isIdeal A = false) := by
  refine ⟨?_, ?_, ?_⟩
  · intro h
    rw [Sub.isIdeal, if_pos h]
  · intro h rows hrows
    have hne : ¬ A.eqSub S = true := by
      rw [h]
      exact Bool.false_ne_true
    have hval : S.isIdeal A = (rows.all fun r => memB S.basisList r) := by
      rw [Sub.isIdeal, if_neg hne, hrows]
    rw [hval]
    exact all_memB_iff S rows
  · intro h hrows
    have hne : ¬ A.eqSub S = true := by
      rw [h]
      exact Bool.false_ne_true
    rw [Sub.isIdeal, if_neg hne, hrows]

/-- Witness for C4: the three branches at concrete candidates over the
abelian algebra (the subalgebra itself, the full algebra, a heterogeneous
algebra whose brackets fail). -/
theorem is_ideal_spec_witness :
    IdealCand.eqSub (IdealCand.sub (mkSub Abel2 [])) (mkSub Abel2 []) = true ∧
    (mkSub Abel2 []).isIdeal (IdealCand.sub (mkSub Abel2 [])) = true ∧
    IdealCand.eqSub (IdealCand.top : IdealCand 2 Abel2) (mkSub Abel2 []) = false ∧
    bracketRows (mkSub Abel2 []) IdealCand.top = some [] ∧
    ((mkSub Abel2 []).isIdeal IdealCand.top = true ↔
      spanL [] ≤ (mkSub Abel2 []).moduleSpan) ∧
    bracketRows (mkSub Abel2 [e0]) (IdealCand.hetero [e1]) = none ∧
    (mkSub Abel2 [e0]).isIdeal (IdealCand.hetero [e1]) = false := by
  have h1 : IdealCand.eqSub (IdealCand.sub (mkSub Abel2 [])) (mkSub Abel2 []) = true := by
    simp [IdealCand.eqSub]
  have h2 : IdealCand.eqSub (IdealCand.top : IdealCand 2 Abel2) (mkSub Abel2 []) = false :=
    rfl
  have h3 : bracketRows (mkSub Abel2 []) IdealCand.top = some [] := rfl
  have h4 : bracketRows (mkSub Abel2 [e0]) (IdealCand.hetero [e1]) = none := by
    rw [bracketRows, basisList_S1]
    rfl
  have h5 : IdealCand.eqSub (IdealCand.hetero [e1]) (mkSub Abel2 [e0]) = false := rfl
  exact ⟨h1, (is_ideal_spec _ _).1 h1, h2, h3, (is_ideal_spec _ _).2.1 h2 [] h3, h4,
    (is_ideal_spec _ _).2.2 h5 h4⟩

/-- Claim C5: the fixed-point saturation loop of `basis()` terminates: it
stops when the dimension no longer increases, the dimension is bounded by
the ambient dimension `n`, each iteration that does not stop strictly
increases the recorded dimension, and fuel `n + 1` already reaches the
fixed point. -/
theorem closure_loop_terminates (L : LieAlg n) (gens : List (Vec n)) :
    ((echelon gens).length ≤ n) ∧
    (∀ (f d : ℕ) (sm : List (Vec n)), sm.length ≤ d →
      basisLoop L (f + 1) d sm = sm) ∧
    (∀ (f d : ℕ) (sm : List (Vec n)), d < sm.length →
      basisLoop L (f + 1) d sm = basisLoop L f sm.length (closureStep L sm)) ∧
    (∀ f, n + 1 ≤ f →
      basisLoop L f 0 (echelon gens) = basisLoop L (n + 1) 0 (echelon gens)) := by
  refine ⟨echInv_length_le (echInv_echelon gens), ?_, ?_, ?_⟩
  · intro f d sm h
    rw [basisLoop_succ, if_neg (not_lt.mpr h)]
  · intro f d sm h
    rw [basisLoop_succ, if_pos h]
  · intro f hf
    exact basisLoop_fuel f (n + 1) 0 (echelon gens) (echInv_echelon gens)
      (by omega) (by omega)

/-- Witness for C5 on the abelian algebra: extra fuel beyond `n + 1` does
not change the result, and the stop and step equations hold concretely. -/
theorem closure_loop_terminates_witness :
    (2 : ℕ) + 1 ≤ 4 ∧ ([] : List (Vec 2)).length ≤ 0 ∧ 0 < [e0].length ∧
    basisLoop Abel2 4 0 (echelon [e0]) = basisLoop Abel2 (2 + 1) 0 (echelon [e0]) ∧
    basisLoop Abel2 (0 + 1) 0 ([] : List (Vec 2)) = [] ∧
    basisLoop Abel2 (0 + 1) 0 [e0] =
      basisLoop Abel2 0 [e0].length (closureStep Abel2 [e0]) :=
  ⟨by norm_num, by simp, by simp,
   (closure_loop_terminates Abel2 [e0]).2.2.2 4 (by norm_num),
   (closure_loop_terminates Abel2 [e0]).2.1 0 0 [] (by simp),
   (closure_loop_terminates Abel2 [e0]).2.2.1 0 0 [e0] (by simp)⟩

/-- Claim C6: the constructed subalgebra only depends on the span of the
generator list — two generator lists spanning the same submodule give the
same echelonized basis and therefore equal modules. -/
theorem subalgebra_order_representation_independent {L : LieAlg n}
    {g1 g2 : List (Vec n)} (h : spanL g1 = spanL g2) :
    (mkSub L g1).basisList = (mkSub L g2).basisList ∧
    (mkSub L g1).moduleSpan = (mkSub L g2).moduleSpan := by
  have hb : (mkSub L g1).basisList = (mkSub L g2).basisList := by
    refine subBasisList_span_congr ?_
    have hf1 : (mkSub L g1).gens = g1.filter (fun g => !vecIsZero g) := rfl
    have hf2 : (mkSub L g2).gens = g2.filter (fun g => !vecIsZero g) := rfl
    rw [hf1, hf2, spanL_filter_nonzero, spanL_filter_nonzero, h]
  refine ⟨hb, ?_⟩
  rw [Sub.moduleSpan, Sub.moduleSpan, hb]

/-- Witness for C6: the lists `[e0, e1]` and `[e1, e0]` span the same
submodule and produce the same echelonized basis. -/
theorem subalgebra_order_representation_independent_witness :
    spanL [e0, e1] = spanL [e1, e0] ∧
    (mkSub Abel2 [e0, e1]).basisList = (mkSub Abel2 [e1, e0]).basisList := by
  have hsub1 : ∀ r ∈ [e0, e1], r ∈ [e1, e0] := by
    intro r hr
    rcases List.mem_cons.mp hr with rfl | hr'
    · exact List.mem_cons_of_mem _ (List.mem_cons_self _ _)
    · rcases List.mem_cons.mp hr' with rfl | h0
      · exact List.mem_cons_self _ _
      · exact absurd h0 (List.not_mem_nil _)
  have hsub2 : ∀ r ∈ [e1, e0], r ∈ [e0, e1] := by
    intro r hr
    rcases List.mem_cons.mp hr with rfl | hr'
    · exact List.mem_cons_of_mem _ (List.mem_cons_self _ _)
    · rcases List.mem_cons.mp hr' with rfl | h0
      · exact List.mem_cons_self _ _
      · exact absurd h0 (List.not_mem_nil _)
  have hspan : spanL [e0, e1] = spanL [e1, e0] :=
    le_antisymm (spanL_le_spanL_of_subset hsub1) (spanL_le_spanL_of_subset hsub2)
  exact ⟨hspan, (subalgebra_order_representation_independent hspan).1⟩

/-- Claim C7: constructing a subalgebra over a subalgebra flattens: the
generators are lifted to the top-level algebra, the ambient of the result
is the top-level algebra (not the intermediate subalgebra), and the module
is the closure of the lifted generators computed inside the top-level
algebra. -/
theorem nested_subalgebra_flattens {L : LieAlg n} (S : Sub n L)
    (gens : List (SubElem S)) :
    mkSubOfSub S gens = mkSub L (gens.map fun g => S.lift g) ∧
    (mkSubOfSub S gens).ambientAlg = L ∧
    (mkSubOfSub S gens).moduleSpan =
      (mkSub L (gens.map fun g => S.lift g)).moduleSpan := by
  have h : mkSubOfSub S gens = mkSub L (gens.map fun g => S.lift g) := by
    rw [mkSubOfSub, mkSub]
    congr 1
    rw [List.filter_map]
    rfl
  exact ⟨h, rfl, by rw [h]⟩

/-- Counterexample for C8 as stated: `to_vector` does not return the
coordinates relative to the subalgebra's own cached basis.  In the
subalgebra of the two dimensional abelian algebra generated by `e0` (of
dimension 1), `to_vector` of the element wrapping `e0` has the two ambient
coordinates, not the single subalgebra coordinate. -/
theorem to_vector_subalgebra_coords_counterexample :
    ¬ (vecToList (SubElem.toVec (S := mkSub Abel2 [e0]) ⟨e0⟩) =
       SubElem.toVecClaimed (S := mkSub Abel2 [e0]) ⟨e0⟩) := by
  intro h
  rw [SubElem.toVecClaimed, basisList_S1] at h
  have hL : vecToList (SubElem.toVec (S := mkSub Abel2 [e0]) ⟨e0⟩) =
      [e0 0, e0 1] := rfl
  have hR : coordList [e0] (SubElem.value (S := mkSub Abel2 [e0]) ⟨e0⟩) =
      [e0 0] := rfl
  rw [hL, hR] at h
  exact List.noConfusion (List.cons.inj h).2

/-- Claim C8 amended: `to_vector` returns the wrapped value's coordinate
vector relative to the ambient basis (of length the ambient dimension);
the coordinates relative to the subalgebra's own cached basis are computed
by `monomial_coefficients` instead, by solving against the cached basis,
and reconstruct the wrapped value. -/
theorem to_vector_ambient_coords {L : LieAlg n} {S : Sub n L} (X : SubElem S) :
    X.toVec = X.value ∧ (vecToList X.toVec).length = n ∧
    (X.value ∈ S.moduleSpan → sumSmul X.toVecClaimed S.basisList = X.value) := by
  refine ⟨rfl, ?_, ?_⟩
  · rw [vecToList, List.length_map, List.length_finRange]
  · intro hmem
    exact sumSmul_coordList (echInv_subBasisList L S.gens) hmem

/-- Witness for the amended C8 on the abelian subalgebra generated by
`e0`. -/
theorem to_vector_ambient_coords_witness :
    e0 ∈ (mkSub Abel2 [e0]).moduleSpan ∧
    sumSmul (SubElem.toVecClaimed (S := mkSub Abel2 [e0]) ⟨e0⟩)
      (mkSub Abel2 [e0]).basisList = e0 :=
  ⟨e0_mem_S1, (to_vector_ambient_coords ⟨e0⟩).2.2 e0_mem_S1⟩

/-- Claim C9, evaluated at a failing input: `Element.__getitem__` at an
index outside the support of `monomial_coefficients` raises `KeyError`
instead of returning the base ring's zero — the `except IndexError` handler
does not catch the `KeyError` a `dict` lookup raises.  Here: the element
wrapping `e0` of the one dimensional subalgebra has coordinate dictionary
`{0: 1}`, and index `1` is out of range. -/
theorem getitem_out_of_range_raises_keyerror :
    SubElem.getItem (S := mkSub Abel2 [e0]) ⟨e0⟩ 1 =
      Except.error PyExc.keyError := by
  have hmc : SubElem.monomialCoefficients (S := mkSub Abel2 [e0]) ⟨e0⟩ =
      [(0, e0 0)] := by
    rw [SubElem.monomialCoefficients, basisList_S1]
    rfl
  rw [SubElem.getItem, hmc]
  rfl

/-- Claim C10: the parent-level `__getitem__` with any argument that is not
a 2-tuple always raises — the fallback path references the unbound name
`sup`, so a `NameError` escapes — while the bracket-pair form succeeds on
operands of the subalgebra. -/
theorem parent_getitem_nonpair_raises {L : LieAlg n} (S : Sub n L) :
    (∀ i : ℕ, S.getItem (GetArg.single i) = Except.error PyExc.nameError) ∧
    (∀ a b : Vec n, a ∈ S.moduleSpan → b ∈ S.moduleSpan →
      S.getItem (GetArg.pair a b) = Except.ok ⟨bracketVec L a b⟩) := by
  refine ⟨fun i => rfl, ?_⟩
  intro a b ha hb
  have h1 : S.getItem (GetArg.pair a b) =
      (S.retract a).bind fun ea => (S.retract b).bind fun eb => ea.bracket eb :=
    rfl
  rw [h1, retract_ok ha, retract_ok hb]
  show SubElem.bracket ⟨a⟩ ⟨b⟩ = _
  rw [SubElem.bracket]
  exact retract_ok (moduleSpan_closed S a ha b hb)

/-- Witness for C10 on the abelian subalgebra generated by `e0`. -/
theorem parent_getitem_nonpair_raises_witness :
    e0 ∈ (mkSub Abel2 [e0]).moduleSpan ∧
    (mkSub Abel2 [e0]).getItem (GetArg.single 5) =
      Except.error PyExc.nameError ∧
    (mkSub Abel2 [e0]).getItem (GetArg.pair e0 e0) =
      Except.ok ⟨bracketVec Abel2 e0 e0⟩ :=
  ⟨e0_mem_S1, (parent_getitem_nonpair_raises _).1 5,
   (parent_getitem_nonpair_raises _).2 e0 e0 e0_mem_S1 e0_mem_S1⟩

end SageLie
